import Mathlib

/-!
Verification of the AssanPOS offline patch scripts.

The repository consists of four one-shot Python scripts that rewrite a
TypeScript source file by textual splicing:

* `fix_translate_block.py` — locate the first occurrence of a start marker,
  then the first occurrence of an end marker at or after it, and replace the
  region strictly between the two markers' start positions with a fixed
  literal block (`text[:start] + new_block + text[end:]`).
* `fix_vendor.py` — split a file into lines, find the first line equal to
  `import {`, drop everything up to and including that line, and prepend a
  fixed header.
* `patch_translate.py` — guarded whole-block replacement via
  `if old not in text ... else text.replace(old, new)`.
* `temp.py` — an abandoned draft that computes marker offsets but performs
  no write, only printing `please rewrite manually`.

Text is modelled as `List Char`; Python's fallible `str.index` is modelled
as an `Option`-returning search (a raised `ValueError` before any write is
`none`, and `none` for the whole script means the target file is left
unchanged).
-/

/-- First index (if any) at which `pat` occurs as a contiguous substring of
`t`, i.e. the least `i` with `pat` a prefix of `t.drop i`.  This is the
model of Python's `str.find`/`str.index` scanning from the left. -/
def findSub? (pat : List Char) : List Char → Option Nat
  | [] => if pat.isPrefixOf ([] : List Char) then some 0 else none
  | c :: rest =>
    if pat.isPrefixOf (c :: rest) then some 0
    else (findSub? pat rest).map (· + 1)

/-- Model of Python `text.index(pat, start)`: least index `≥ start` at which
`pat` occurs in `text`; `none` models the raised `ValueError`. -/
def strIndex? (pat text : List Char) (start : Nat) : Option Nat :=
  (findSub? pat (text.drop start)).map (· + start)

/-- The splice of `fix_translate_block.py` (and the shared shape of the
three translate-block drafts), parameterised over the two markers and the
replacement, per spec §4.1: `text[:start] + repl + text[end:]` where
`start = text.index(startM)` and `end = text.index(endM, start)`; `none`
models the uncaught `ValueError` (no write happens). -/
def spliceBetween (startM endM repl text : List Char) : Option (List Char) :=
  match strIndex? startM text 0 with
  | none => none
  | some s =>
    match strIndex? endM text s with
    | none => none
    | some e => some (text.take s ++ repl ++ text.drop e)

/-! ### Correctness of the substring search -/

theorem isPrefixOf_iff_pfx (p t : List Char) : p.isPrefixOf t = true ↔ p <+: t := by
  induction p generalizing t with
  | nil => simp [List.isPrefixOf]
  | cons a as ih =>
    cases t with
    | nil => simp [List.isPrefixOf]
    | cons b bs =>
      simp only [List.isPrefixOf, Bool.and_eq_true, beq_iff_eq, List.cons_prefix_cons]
      exact and_congr Iff.rfl (ih bs)

theorem findSub?_sound (pat : List Char) :
    ∀ t i, findSub? pat t = some i → pat <+: t.drop i := by
  intro t
  induction t with
  | nil =>
    intro i h
    simp only [findSub?] at h
    split at h
    · cases h
      simpa using (isPrefixOf_iff_pfx pat []).mp ‹pat.isPrefixOf ([] : List Char) = true›
    · cases h
  | cons c rest ih =>
    intro i h
    simp only [findSub?] at h
    split at h
    · cases h
      simpa using (isPrefixOf_iff_pfx pat (c :: rest)).mp ‹pat.isPrefixOf (c :: rest) = true›
    · rcases Option.map_eq_some'.mp h with ⟨j, hj, rfl⟩
      simpa [List.drop_succ_cons] using ih j hj

theorem findSub?_min (pat : List Char) :
    ∀ t i, findSub? pat t = some i → ∀ k, k < i → ¬ pat <+: t.drop k := by
  intro t
  induction t with
  | nil =>
    intro i h
    simp only [findSub?] at h
    split at h
    · cases h; omega
    · cases h
  | cons c rest ih =>
    intro i h
    simp only [findSub?] at h
    split at h
    · cases h; omega
    · rcases Option.map_eq_some'.mp h with ⟨j, hj, rfl⟩
      intro k hk
      match k with
      | 0 =>
        intro hcon
        have : pat.isPrefixOf (c :: rest) = true := (isPrefixOf_iff_pfx _ _).mpr (by simpa using hcon)
        simp_all
      | Nat.succ k' =>
        have hk' : k' < j := by omega
        simpa [List.drop_succ_cons] using ih j hj k' hk'

theorem findSub?_complete (pat : List Char) :
    ∀ t i, pat <+: t.drop i → ∃ j, j ≤ i ∧ findSub? pat t = some j := by
  intro t
  induction t with
  | nil =>
    intro i h
    have hnil : pat = [] := by simpa using h
    refine ⟨0, Nat.zero_le _, ?_⟩
    simp [findSub?, hnil, List.isPrefixOf]
  | cons c rest ih =>
    intro i h
    by_cases hp : pat.isPrefixOf (c :: rest) = true
    · exact ⟨0, Nat.zero_le _, by simp [findSub?, hp]⟩
    · match i with
      | 0 =>
        exact absurd ((isPrefixOf_iff_pfx _ _).mpr (by simpa using h)) hp
      | Nat.succ i' =>
        have h' : pat <+: rest.drop i' := by simpa [List.drop_succ_cons] using h
        rcases ih i' h' with ⟨j, hji, hj⟩
        exact ⟨j + 1, by omega, by simp [findSub?, hp, hj]⟩

/-- `findSub?` returns exactly the first occurrence position. -/
theorem findSub?_first (pat t : List Char) (i : Nat)
    (hocc : pat <+: t.drop i) (hmin : ∀ k, k < i → ¬ pat <+: t.drop k) :
    findSub? pat t = some i := by
  rcases findSub?_complete pat t i hocc with ⟨j, hji, hj⟩
  have hj_occ := findSub?_sound pat t j hj
  have : ¬ j < i := fun hlt => hmin j hlt hj_occ
  have : j = i := by omega
  subst this
  exact hj

theorem findSub?_none (pat t : List Char) (h : findSub? pat t = none) :
    ∀ i, ¬ pat <+: t.drop i := by
  intro i hocc
  rcases findSub?_complete pat t i hocc with ⟨j, _, hj⟩
  rw [h] at hj
  cases hj

/-- A non-empty pattern cannot occur at or beyond the end of the text. -/
theorem not_pfx_of_len_le (pat t : List Char) (hp : pat ≠ []) (i : Nat)
    (hi : t.length ≤ i) : ¬ pat <+: t.drop i := by
  intro h
  have : t.drop i = [] := List.drop_eq_nil_of_le hi
  rw [this] at h
  exact hp (by simpa using h)

/-! ### C1, C2: the marker-bounded splice -/

/-- **C1** Marker-bounded block replacement: for every input text in which the
start marker occurs (first occurrence at `s`) and the end marker occurs at or
after `s` (first such occurrence at `e`), the rewritten text is exactly
text-before-`s` ++ replacement ++ text-from-`e`-onward, so the end marker
itself is preserved. -/
theorem spliceBetween_spec (startM endM repl text : List Char) (s e : Nat)
    (hs : startM <+: text.drop s)
    (hs_first : ∀ k, k < s → ¬ startM <+: text.drop k)
    (hse : s ≤ e)
    (he : endM <+: text.drop e)
    (he_first : ∀ k, k < e → s ≤ k → ¬ endM <+: text.drop k) :
    spliceBetween startM endM repl text = some (text.take s ++ repl ++ text.drop e) := by
  have h1 : findSub? startM text = some s := findSub?_first startM text s hs hs_first
  have hes : e - s + s = e := by omega
  have h2 : findSub? endM (text.drop s) = some (e - s) := by
    apply findSub?_first
    · rw [List.drop_drop]
      have h3 : s + (e - s) = e := by omega
      rw [h3]; exact he
    · intro k hk
      rw [List.drop_drop]
      exact he_first (s + k) (by omega) (by omega)
  simp only [spliceBetween, strIndex?, List.drop_zero, h1, Option.map_some', Nat.add_zero, h2,
    hes]

theorem spliceBetween_spec_witness :
    spliceBetween ['s'] ['e'] ['R'] ['a', 's', 'b', 'e', 'c'] = some ['a', 'R', 'e', 'c'] := by
  have h := spliceBetween_spec ['s'] ['e'] ['R'] ['a', 's', 'b', 'e', 'c'] 1 3
    (by decide) (by decide) (by decide) (by decide) (by decide)
  simpa using h

/-- **C2** Marker-bounded replacement failure: if the start marker never
occurs, or it first occurs at `s` but the end marker never occurs at or after
`s`, the splice fails (`none`, modelling the uncaught `ValueError` raised
before any write, so the target file stays unchanged).  Both markers are
non-empty (as they are in the scripts), which lets the absence hypotheses be
stated over positions inside the text only. -/
theorem spliceBetween_fails (startM endM repl text : List Char)
    (hsne : startM ≠ []) (hene : endM ≠ [])
    (h : (∀ i, i < text.length → ¬ startM <+: text.drop i) ∨
         (∃ s, startM <+: text.drop s ∧ (∀ k, k < s → ¬ startM <+: text.drop k) ∧
           ∀ j, j < text.length → s ≤ j → ¬ endM <+: text.drop j)) :
    spliceBetween startM endM repl text = none := by
  rcases h with habs | ⟨s, hs, hs_first, hend⟩
  · have hnone : findSub? startM text = none := by
      cases hfd : findSub? startM text with
      | none => rfl
      | some i =>
        have hocc := findSub?_sound startM text i hfd
        by_cases hi : i < text.length
        · exact absurd hocc (habs i hi)
        · exact absurd hocc (not_pfx_of_len_le startM text hsne i (by omega))
    simp [spliceBetween, strIndex?, List.drop_zero, hnone]
  · have h1 : findSub? startM text = some s := findSub?_first startM text s hs hs_first
    have hnone : findSub? endM (text.drop s) = none := by
      cases hfd : findSub? endM (text.drop s) with
      | none => rfl
      | some d =>
        have hocc := findSub?_sound endM (text.drop s) d hfd
        rw [List.drop_drop] at hocc
        by_cases hj : s + d < text.length
        · exact absurd hocc (hend (s + d) hj (by omega))
        · exact absurd hocc (not_pfx_of_len_le endM text hene (s + d) (by omega))
    simp [spliceBetween, strIndex?, List.drop_zero, h1, hnone]

theorem spliceBetween_fails_witness :
    spliceBetween ['q'] ['e'] ['R'] ['a', 'e'] = none :=
  spliceBetween_fails ['q'] ['e'] ['R'] ['a', 'e'] (by decide) (by decide)
    (Or.inl (by decide))

/-! ### C3: the concrete splice scenario -/

/-- **C3** (counterexample) The spec's scenario claims the splice of
`"A start X middle end B"` with markers `"start"`/`"end"` and replacement
`"NEW"` yields `"A NEW end B"`; the code actually yields `"A NEWend B"`
(the region from the start marker's first character up to, but not
including, the end marker's first character is replaced, so the space
before `end` is consumed and none is reinserted). -/
theorem scenario_splice_cex :
    spliceBetween "start".toList "end".toList "NEW".toList "A start X middle end B".toList
        = some "A NEWend B".toList ∧
    spliceBetween "start".toList "end".toList "NEW".toList "A start X middle end B".toList
        ≠ some "A NEW end B".toList := by
  constructor
  · decide
  · decide

/-- **C3** (amended) Splice scenario: with start-marker `"start"`,
end-marker `"end"`, and replacement `"NEW"`, the input
`"A start X middle end B"` is rewritten to exactly `"A NEWend B"`. -/
theorem scenario_splice_value :
    spliceBetween "start".toList "end".toList "NEW".toList "A start X middle end B".toList
      = some "A NEWend B".toList := by
  decide

/-! ### fix_vendor.py: the header-line splice -/

/-- Index of the first element of `ls` equal to `m` (model of Python
`list.index`, with `none` for the raised `ValueError`). -/
def lineIndex? (m : String) : List String → Option Nat
  | [] => none
  | l :: rest => if l = m then some 0 else (lineIndex? m rest).map (· + 1)

/-- The marker line searched for by `fix_vendor.py`
(`lines.index('import {')`). -/
def importMarker : String := "import \x7b"

/-- The fixed replacement header of `fix_vendor.py`.  In the script it is a
triple-quoted string split on newlines, which leaves a trailing empty
line. -/
def newHeader : List String :=
  ["import React, \x7b useEffect, useMemo, useState \x7d from \x27react\x27;",
   "import * as ImagePicker from \x27expo-image-picker\x27;",
   "import \x7b Alert, KeyboardAvoidingView, Modal, Platform, ScrollView, StyleSheet, Text, TextInput, TouchableOpacity, View, Image \x7d from \x27react-native\x27;",
   ""]

/-- `fix_vendor.py` on the file's line list: find the first line equal to
`import {` (an uncaught `ValueError`, i.e. `none`, if absent), keep the
lines strictly after it, and prepend `newHeader`. -/
def fix_vendor (lines : List String) : Option (List String) :=
  match lineIndex? importMarker lines with
  | none => none
  | some i => some (newHeader ++ lines.drop (i + 1))

theorem lineIndex?_sound (m : String) :
    ∀ ls i, lineIndex? m ls = some i → ls[i]? = some m := by
  intro ls
  induction ls with
  | nil => intro i h; cases h
  | cons l rest ih =>
    intro i h
    simp only [lineIndex?] at h
    split at h
    · cases h; simp_all
    · rcases Option.map_eq_some'.mp h with ⟨j, hj, rfl⟩
      simpa using ih j hj

theorem lineIndex?_complete (m : String) :
    ∀ ls i, ls[i]? = some m → ∃ j, j ≤ i ∧ lineIndex? m ls = some j := by
  intro ls
  induction ls with
  | nil => intro i h; simp at h
  | cons l rest ih =>
    intro i h
    by_cases hl : l = m
    · exact ⟨0, Nat.zero_le _, by simp [lineIndex?, hl]⟩
    · match i with
      | 0 => simp_all
      | Nat.succ i' =>
        have h' : rest[i']? = some m := by simpa using h
        rcases ih i' h' with ⟨j, hji, hj⟩
        exact ⟨j + 1, by omega, by simp [lineIndex?, hl, hj]⟩

theorem lineIndex?_first (m : String) (ls : List String) (i : Nat)
    (hi : ls[i]? = some m) (hfirst : ∀ k, k < i → ls[k]? ≠ some m) :
    lineIndex? m ls = some i := by
  rcases lineIndex?_complete m ls i hi with ⟨j, hji, hj⟩
  have hj_at := lineIndex?_sound m ls j hj
  have : ¬ j < i := fun hlt => hfirst j hlt hj_at
  have : j = i := by omega
  subst this
  exact hj

theorem lineIndex?_absent (m : String) :
    ∀ ls, m ∉ ls → lineIndex? m ls = none := by
  intro ls
  induction ls with
  | nil => intro _; rfl
  | cons l rest ih =>
    intro h
    have hl : l ≠ m := fun he => h (he ▸ List.mem_cons_self l rest)
    have hr : m ∉ rest := fun hm => h (List.mem_cons_of_mem l hm)
    simp [lineIndex?, hl, ih hr]

/-! ### C4: the header splice keeps everything after the FIRST marker -/

/-- **C4** (counterexample) On a line list where the marker occurs first at
position 0 and again at position 2, the claim predicts
`newHeader ++ lines[3:]` (drop through the second occurrence), but
`fix_vendor` drops only through the first occurrence and keeps
`lines[1:]`, second marker included. -/
theorem fix_vendor_second_marker_cex :
    fix_vendor [importMarker, "x", importMarker, "y"]
        = some (newHeader ++ ["x", importMarker, "y"]) ∧
    fix_vendor [importMarker, "x", importMarker, "y"]
        ≠ some (newHeader ++ ["y"]) := by
  constructor
  · decide
  · decide

/-- **C4** (amended) Header-line splice: for every line list containing the
marker line first at position `i` and again at some position `j > i`, the
result equals the fixed replacement header followed by `lines[i+1:]` — all
lines through the FIRST marker occurrence inclusive are dropped; the second
occurrence plays no role. -/
theorem fix_vendor_first_splice (lines : List String) (i j : Nat)
    (hi : lines[i]? = some importMarker)
    (hfirst : ∀ k, k < i → lines[k]? ≠ some importMarker)
    (_hij : i < j) (_hj : lines[j]? = some importMarker) :
    fix_vendor lines = some (newHeader ++ lines.drop (i + 1)) := by
  have h1 : lineIndex? importMarker lines = some i := lineIndex?_first _ _ _ hi hfirst
  simp [fix_vendor, h1]

theorem fix_vendor_first_splice_witness :
    fix_vendor [importMarker, "a", importMarker, "b"]
      = some (newHeader ++ ["a", importMarker, "b"]) := by
  have h := fix_vendor_first_splice [importMarker, "a", importMarker, "b"] 0 2
    (by decide) (by decide) (by decide) (by decide)
  simpa using h

/-! ### C5: missing guard on the marker count -/

/-- **C5** (counterexample) The claim says any line list with fewer than two
marker occurrences makes the operation fail without mutating; but on a list
with exactly one occurrence `fix_vendor` succeeds and rewrites the file. -/
theorem fix_vendor_single_mutates_cex :
    List.count importMarker [importMarker, "y"] = 1 ∧
    fix_vendor [importMarker, "y"] = some (newHeader ++ ["y"]) ∧
    fix_vendor [importMarker, "y"] ≠ none := by
  refine ⟨by decide, by decide, by decide⟩

/-- **C5** (amended) Only total absence of the marker line makes the
operation fail: the unguarded `lines.index` raises an uncaught
`ValueError` (modelled `none`) before any write, so the file is unchanged;
with exactly one occurrence the splice succeeds and mutates the file. -/
theorem fix_vendor_absent_none (lines : List String)
    (h : importMarker ∉ lines) : fix_vendor lines = none := by
  simp [fix_vendor, lineIndex?_absent importMarker lines h]

theorem fix_vendor_absent_none_witness :
    fix_vendor ["x", "y"] = none :=
  fix_vendor_absent_none ["x", "y"] (by decide)

/-! ### C6: re-running on already-patched output -/

/-- **C6** (counterexample) The claim says a line list where the marker
appears exactly once must make the re-run fail without further mutation;
but `fix_vendor` happily splices again: on the single-line list
`[importMarker]` it succeeds and rewrites the lines to `newHeader`. -/
theorem fix_vendor_rerun_cex :
    List.count importMarker [importMarker] = 1 ∧
    fix_vendor [importMarker] = some newHeader ∧
    fix_vendor [importMarker] ≠ none := by
  refine ⟨by decide, by decide, by decide⟩

/-- **C6** (amended) Re-run behaviour: on a line list where the marker line
appears exactly once (at position `i`), the operation does NOT fail — it
splices again, rewriting the lines to `newHeader ++ lines[i+1:]`.  (Only
when the patched output no longer contains the marker at all does a re-run
stop with an uncaught lookup error, per the absence theorem.) -/
theorem fix_vendor_rerun_splices (lines : List String) (i : Nat)
    (hi : lines[i]? = some importMarker)
    (huniq : ∀ k, k < lines.length → k ≠ i → lines[k]? ≠ some importMarker) :
    fix_vendor lines = some (newHeader ++ lines.drop (i + 1)) := by
  have hlen : i < lines.length := by
    by_contra hge
    rw [List.getElem?_eq_none (by omega)] at hi
    cases hi
  have h1 : lineIndex? importMarker lines = some i := by
    apply lineIndex?_first _ _ _ hi
    intro k hk
    exact huniq k (by omega) (by omega)
  simp [fix_vendor, h1]

theorem fix_vendor_rerun_splices_witness :
    fix_vendor ["a", importMarker, "b"] = some (newHeader ++ ["b"]) := by
  have h := fix_vendor_rerun_splices ["a", importMarker, "b"] 1
    (by decide) (by decide)
  simpa using h

/-! ### patch_translate.py: guarded whole-block replacement -/

/-- Model of Python `str.replace(old, new)` for non-empty `old`: scan left
to right; wherever `old` matches, emit `new` and skip past the match
(non-overlapping); otherwise copy one character and continue.  (For
`old = []` this copies the text unchanged; the script only ever calls it
with a large non-empty literal.) -/
def pyReplace (old new : List Char) (t : List Char) : List Char :=
  if h : old ≠ [] ∧ old.isPrefixOf t then
    new ++ pyReplace old new (t.drop old.length)
  else
    match t with
    | [] => []
    | c :: rest => c :: pyReplace old new rest
termination_by t.length
decreasing_by
  · have hle : old.length ≤ t.length :=
      ((isPrefixOf_iff_pfx old t).mp h.2).length_le
    have hpos : 0 < old.length := List.length_pos.mpr h.1
    simp only [List.length_drop]
    omega
  · simp

/-- `patch_translate.py`: `if old not in text: report not-found (no write)
else: write text.replace(old, new)`.  `none` models the not-found branch,
where the file is left unchanged. -/
def patch_translate (old new text : List Char) : Option (List Char) :=
  if (findSub? old text).isSome then some (pyReplace old new text) else none

/-- **C7** Guarded whole-block replacement (for the non-empty literal block
the script uses): if the old block occurs nowhere in the text the script
reports not-found and performs no write (`none`); if it occurs somewhere,
the script persists `text.replace(old, new)`, i.e. every (left-to-right,
non-overlapping) occurrence replaced. -/
theorem patch_translate_guard (old new text : List Char) (hne : old ≠ []) :
    ((∀ i, i < text.length → ¬ old <+: text.drop i) →
        patch_translate old new text = none) ∧
    (∀ i, old <+: text.drop i →
        patch_translate old new text = some (pyReplace old new text)) := by
  constructor
  · intro habs
    have hnone : findSub? old text = none := by
      cases hfd : findSub? old text with
      | none => rfl
      | some j =>
        have hocc := findSub?_sound old text j hfd
        by_cases hj : j < text.length
        · exact absurd hocc (habs j hj)
        · exact absurd hocc (not_pfx_of_len_le old text hne j (by omega))
    simp [patch_translate, hnone]
  · intro i hocc
    rcases findSub?_complete old text i hocc with ⟨j, _, hj⟩
    simp [patch_translate, hj]

theorem patch_translate_guard_witness :
    patch_translate ['a', 'b'] ['X'] ['z', 'a', 'b', 'a', 'b', 'w']
      = some ['z', 'X', 'X', 'w'] := by
  have h := (patch_translate_guard ['a', 'b'] ['X'] ['z', 'a', 'b', 'a', 'b', 'w']
    (by decide)).2 1 (by decide)
  rw [h]
  simp [pyReplace]

/-! ### The mojibake-repair heuristic

`fixMojibake` is the arrow function embedded (as a literal) in the
replacement block of `fix_translate_block.py`:

  const decoded = Buffer.from(value, binary-encoding).toString(utf8);
  const hasArabic = /[؀-ۿ]/.test(decoded);
  if (hasArabic) return decoded;  — on any decode error: return value

A string is modelled as its list of code points (`List Nat`).  The
byte-for-byte reinterpretation (`Buffer.from(value, 'binary')`) is modelled
per spec §4.4 as strict single-byte reinterpretation — a code point above
255 is a decode error — and `toString('utf8')` as strict multi-byte UTF-8
decoding, any failure being swallowed by the surrounding try/catch. -/

/-- Reinterpret each code point of the string as one raw byte; code points
above 255 fail (the failure is caught by `fixMojibake`). -/
def toBytes? (value : List Nat) : Option (List Nat) :=
  value.mapM (fun c => if c ≤ 255 then some c else none)

/-- Strict UTF-8 decoding of a byte sequence into a list of code points:
rejects stray continuation bytes, overlong encodings, surrogates and
out-of-range sequences. -/
def utf8Decode : List Nat → Option (List Nat)
  | [] => some []
  | b :: rest =>
    if b < 0x80 then
      (utf8Decode rest).map (fun cs => b :: cs)
    else if b < 0xC2 then
      none
    else if b < 0xE0 then
      match rest with
      | b1 :: rest1 =>
        if 0x80 ≤ b1 && b1 < 0xC0 then
          (utf8Decode rest1).map (fun cs => ((b - 0xC0) * 64 + (b1 - 0x80)) :: cs)
        else none
      | [] => none
    else if b < 0xF0 then
      match rest with
      | b1 :: b2 :: rest2 =>
        if (0x80 ≤ b1 && b1 < 0xC0) && (0x80 ≤ b2 && b2 < 0xC0) then
          let cp := (b - 0xE0) * 4096 + (b1 - 0x80) * 64 + (b2 - 0x80)
          if 0x800 ≤ cp && (cp < 0xD800 || 0xDFFF < cp) then
            (utf8Decode rest2).map (fun cs => cp :: cs)
          else none
        else none
      | _ => none
    else if b < 0xF5 then
      match rest with
      | b1 :: b2 :: b3 :: rest3 =>
        if ((0x80 ≤ b1 && b1 < 0xC0) && (0x80 ≤ b2 && b2 < 0xC0)) &&
            (0x80 ≤ b3 && b3 < 0xC0) then
          let cp := (b - 0xF0) * 262144 + (b1 - 0x80) * 4096 + (b2 - 0x80) * 64 + (b3 - 0x80)
          if 0x10000 ≤ cp && cp ≤ 0x10FFFF then
            (utf8Decode rest3).map (fun cs => cp :: cs)
          else none
        else none
      | _ => none
    else none

/-- The fallible decode step of `fixMojibake` (spec §9 models it exactly so:
an operation returning an optional result rather than exception
suppression). -/
def decodeValue (value : List Nat) : Option (List Nat) :=
  (toBytes? value).bind utf8Decode

/-- The test `/[؀-ۿ]/.test(decoded)`: does the text contain at
least one code point in the Arabic block U+0600–U+06FF? -/
def hasArabic (l : List Nat) : Bool :=
  l.any (fun c => 0x600 ≤ c && c ≤ 0x6FF)

/-- The `fixMojibake` arrow function: if the reinterpret-and-decode step
succeeds and the decoded text contains an Arabic-range character, return
the decoded text; in every other case (including any decode error) return
the input unchanged. -/
def fixMojibake (value : List Nat) : List Nat :=
  match decodeValue value with
  | some decoded => if hasArabic decoded then decoded else value
  | none => value

/-- **C8** Mojibake-repair heuristic: (1) when the byte-reinterpretation
and UTF-8 decode succeed and the decoded text contains an Arabic-range
(U+0600–U+06FF) code point, the result is the decoded text; (2) when they
succeed but no Arabic-range code point appears, the input is returned
unchanged; (3) when the decode step fails (a code point above 255, or an
invalid UTF-8 byte sequence), the input is returned unchanged; (4) the
two-character input U+00D8 U+00A8 maps to the single character U+0628;
(5) `"hello"` maps to itself. -/
theorem fixMojibake_spec :
    (∀ v d, decodeValue v = some d → hasArabic d = true → fixMojibake v = d) ∧
    (∀ v d, decodeValue v = some d → hasArabic d = false → fixMojibake v = v) ∧
    (∀ v, decodeValue v = none → fixMojibake v = v) ∧
    fixMojibake [0xD8, 0xA8] = [0x628] ∧
    fixMojibake [104, 101, 108, 108, 111] = [104, 101, 108, 108, 111] := by
  refine ⟨?_, ?_, ?_, by decide, by decide⟩
  · intro v d h1 h2
    simp [fixMojibake, h1, h2]
  · intro v d h1 h2
    simp [fixMojibake, h1, h2]
  · intro v h1
    simp [fixMojibake, h1]

theorem fixMojibake_spec_witness :
    decodeValue [0xD8, 0xA8] = some [0x628] ∧ fixMojibake [0xD8, 0xA8] = [0x628] :=
  ⟨by decide, fixMojibake_spec.1 [0xD8, 0xA8] [0x628] (by decide) (by decide)⟩

/-! ### The concrete markers and replacement block of fix_translate_block.py -/

/-- Start marker of `fix_translate_block.py` and `temp.py`:
`text.index('export function translate')`. -/
def startMarker : List Char := "export function translate".toList

/-- End marker of `fix_translate_block.py` and `temp.py`:
`text.index('export function registerTranslation', start)`. -/
def endMarker : List Char := "export function registerTranslation".toList

/-- The literal replacement block `new_block` of `fix_translate_block.py`
(the Python triple-quoted string, line by line; `؀-ۿ` are the
actual Arabic-block characters the Python escapes denote). -/
def new_block : List Char :=
  ("export function translate(\n" ++
   "  language: LanguageCode,\n" ++
   "  englishPhrase: string,\n" ++
   "  fallbackUrdu?: string\n" ++
   "): string \x7b\n" ++
   "  const fixMojibake = (value: string) => \x7b\n" ++
   "    try \x7b\n" ++
   "      const decoded = Buffer.from(value, \x27binary\x27).toString(\x27utf8\x27);\n" ++
   "      const hasArabic = /[؀-ۿ]/.test(decoded);\n" ++
   "      if (hasArabic) \x7b\n" ++
   "        return decoded;\n" ++
   "      \x7d\n" ++
   "    \x7d catch \x7b\n" ++
   "      // ignore decode issues\n" ++
   "    \x7d\n" ++
   "    return value;\n" ++
   "  \x7d;\n" ++
   "\n" ++
   "  const entry = TRANSLATION_DICTIONARY[englishPhrase];\n" ++
   "\n" ++
   "  if (entry) \x7b\n" ++
   "    if (language === \x27english\x27) \x7b\n" ++
   "      return entry[0];\n" ++
   "    \x7d\n" ++
   "    if (language === \x27urdu\x27) \x7b\n" ++
   "      return fixMojibake(entry[1]);\n" ++
   "    \x7d\n" ++
   "    return entry[0];\n" ++
   "  \x7d\n" ++
   "\n" ++
   "  if (language === \x27urdu\x27) \x7b\n" ++
   "    return fixMojibake(fallbackUrdu ?? englishPhrase);\n" ++
   "  \x7d\n" ++
   "\n" ++
   "  return englishPhrase;\n" ++
   "\x7d\n").toList

/-- `fix_translate_block.py`: splice `new_block` between the first
occurrence of `startMarker` and the first occurrence of `endMarker` at or
after it (`text[:start] + new_block + text[end:]`); `none` models the
uncaught `ValueError` before the write. -/
def fix_translate_block (text : List Char) : Option (List Char) :=
  spliceBetween startMarker endMarker new_block text

/-! ### temp.py: the abandoned draft -/

/-- `temp.py` as a transition on the observable state: the first component
is the write performed on the target file (`none` = no write at all), the
second the console output (`none` when the script dies in `text.index`
with an uncaught `ValueError` before reaching its print).  The script
computes both marker offsets and the `body` slice, builds its `old`/`new`
literals, and then only prints — it contains no `write_text` call. -/
def temp_script (text : List Char) : Option (List Char) × Option String :=
  match strIndex? startMarker text 0 with
  | none => (none, none)
  | some s =>
    match strIndex? endMarker text s with
    | none => (none, none)
    | some _ => (none, some "please rewrite manually")

/-- **C9** Unfinished script performs no mutation: on every input file text,
`temp.py` performs no write to the target file — whether the markers are
present or not — and the only console output it can produce is the message
asking for manual intervention. -/
theorem temp_script_no_write (text : List Char) :
    (temp_script text).1 = none ∧
    ((temp_script text).2 = none ∨
      (temp_script text).2 = some "please rewrite manually") := by
  unfold temp_script
  split
  · exact ⟨rfl, Or.inl rfl⟩
  · split
    · exact ⟨rfl, Or.inl rfl⟩
    · exact ⟨rfl, Or.inr rfl⟩

/-! ### C10: idempotence of the translate-block rewrite -/

theorem pfx_split {α : Type*} {p a b : List α} (h : p <+: a ++ b)
    (hl : a.length ≤ p.length) : a <+: p ∧ p.drop a.length <+: b := by
  obtain ⟨r, hr⟩ := h
  have ha : a <+: p := by
    have h1 : a <+: p ++ r := by rw [hr]; exact List.prefix_append a b
    exact (List.isPrefix_append_of_length hl).mp h1
  refine ⟨ha, ?_⟩
  obtain ⟨q, hq⟩ := ha
  have hq' : p.drop a.length = q := by rw [← hq]; exact List.drop_left a q
  rw [hq']
  refine ⟨r, ?_⟩
  have h2 : a ++ (q ++ r) = a ++ b := by
    rw [← List.append_assoc, hq, hr]
  exact List.append_cancel_left h2

theorem drop_len_append {α : Type*} (l₁ l₂ : List α) (n : Nat)
    (h : l₁.length = n) : (l₁ ++ l₂).drop n = l₂ := by
  rw [← h]; exact List.drop_left l₁ l₂

theorem take_len_append {α : Type*} (l₁ l₂ : List α) (n : Nat)
    (h : l₁.length = n) : (l₁ ++ l₂).take n = l₁ := by
  rw [← h]; exact List.take_left l₁ l₂

/-- In the spliced text, no new occurrence of the start marker can appear
before the original first-occurrence position, because the replacement
block itself begins with the start marker: any straddling occurrence would
already have been an occurrence in the original text. -/
theorem splice_min_start (startM repl text suf : List Char) (s : Nat)
    (hs_le : s ≤ text.length)
    (hSrepl : startM <+: repl)
    (occS : startM <+: text.drop s)
    (minS : ∀ k, k < s → ¬ startM <+: text.drop k)
    (k : Nat) (hk : k < s) :
    ¬ startM <+: (text.take s ++ (repl ++ suf)).drop k := by
  intro hocc
  apply minS k hk
  have hlt : (text.take s).length = s := by rw [List.length_take]; omega
  have hdrop : (text.take s ++ (repl ++ suf)).drop k
      = (text.take s).drop k ++ (repl ++ suf) := by
    rw [List.drop_append_eq_append_drop, hlt]
    have e : k - s = 0 := by omega
    rw [e, List.drop_zero]
  have hlenA : ((text.take s).drop k).length = s - k := by
    rw [List.length_drop, hlt]
  rw [hdrop] at hocc
  by_cases hcase : startM.length ≤ s - k
  · have h1 : startM <+: (text.take s).drop k :=
      (List.isPrefix_append_of_length (by rw [hlenA]; exact hcase)).mp hocc
    have h2 : (text.take s).drop k <+: text.drop k := by
      rw [List.drop_take]
      exact List.take_prefix _ _
    exact h1.trans h2
  · push_neg at hcase
    obtain ⟨hApfx, hrest⟩ := pfx_split hocc (by rw [hlenA]; omega)
    rw [hlenA] at hrest
    have h3 : startM.drop (s - k) <+: repl := by
      apply (List.isPrefix_append_of_length ?_).mp hrest
      have := hSrepl.length_le
      rw [List.length_drop]; omega
    obtain ⟨q, hq⟩ := hSrepl
    have h4 : startM.drop (s - k) <+: startM := by
      rw [← hq] at h3
      apply (List.isPrefix_append_of_length ?_).mp h3
      rw [List.length_drop]; omega
    have h5 : startM.drop (s - k) <+: text.drop s := h4.trans occS
    obtain ⟨w, hw⟩ := h5
    have hAeq : (text.take s).drop k = startM.take (s - k) := by
      have he := List.prefix_iff_eq_take.mp hApfx
      rw [hlenA] at he
      exact he
    refine ⟨w, ?_⟩
    have htk : text.drop k = (text.take s).drop k ++ text.drop s := by
      conv_lhs => rw [← List.take_append_drop s text]
      rw [List.drop_append_eq_append_drop, hlt]
      have e : k - s = 0 := by omega
      rw [e, List.drop_zero]
    rw [htk, hAeq, ← hw, ← List.append_assoc, List.take_append_drop]

/-- In `repl ++ suf` with `suf` starting with the end marker, the first
occurrence of the end marker is at position `repl.length`, provided the end
marker's first occurrence in `repl ++ endM` is at `repl.length` (i.e. the
replacement block neither contains the end marker nor ends with a proper
prefix of it that chains into it). -/
theorem splice_min_end (endM repl suf : List Char)
    (hErepl : findSub? endM (repl ++ endM) = some repl.length)
    (occE : endM <+: suf)
    (k : Nat) (hk : k < repl.length) :
    ¬ endM <+: (repl ++ suf).drop k := by
  intro hocc
  obtain ⟨w, hw⟩ := occE
  have hdrop : (repl ++ suf).drop k = repl.drop k ++ suf := by
    rw [List.drop_append_eq_append_drop]
    have e : k - repl.length = 0 := by omega
    rw [e, List.drop_zero]
  rw [hdrop, ← hw, ← List.append_assoc] at hocc
  have hlen : endM.length ≤ (repl.drop k ++ endM).length := by
    rw [List.length_append]; omega
  have h1 : endM <+: repl.drop k ++ endM :=
    (List.isPrefix_append_of_length hlen).mp hocc
  have h2 : (repl ++ endM).drop k = repl.drop k ++ endM := by
    rw [List.drop_append_eq_append_drop]
    have e : k - repl.length = 0 := by omega
    rw [e, List.drop_zero]
  exact findSub?_min endM (repl ++ endM) repl.length hErepl k hk (h2 ▸ h1)

theorem spliceBetween_eq_some (startM endM repl text r : List Char)
    (h : spliceBetween startM endM repl text = some r) :
    ∃ s d, findSub? startM text = some s ∧ findSub? endM (text.drop s) = some d ∧
      r = text.take s ++ (repl ++ text.drop (d + s)) := by
  unfold spliceBetween strIndex? at h
  rw [List.drop_zero] at h
  cases hfs : findSub? startM text with
  | none => rw [hfs] at h; simp at h
  | some s =>
    rw [hfs] at h
    simp only [Option.map_some', Nat.add_zero] at h
    cases hfe : findSub? endM (text.drop s) with
    | none => rw [hfe] at h; simp at h
    | some d =>
      rw [hfe] at h
      simp only [Option.map_some', Option.some.injEq] at h
      refine ⟨s, d, rfl, hfe, ?_⟩
      rw [← h, List.append_assoc]

/-- General idempotence of the marker-bounded splice, under the two
properties the concrete replacement block enjoys: it begins with the start
marker, and the end marker's first occurrence in `repl ++ endM` is exactly
at `repl.length`. -/
theorem spliceBetween_idem (startM endM repl text r : List Char)
    (hsne : startM ≠ [])
    (hSrepl : startM <+: repl)
    (hErepl : findSub? endM (repl ++ endM) = some repl.length)
    (h : spliceBetween startM endM repl text = some r) :
    spliceBetween startM endM repl r = some r := by
  obtain ⟨s, d, hfs, hfe, hr⟩ := spliceBetween_eq_some startM endM repl text r h
  have occS := findSub?_sound startM text s hfs
  have minS := findSub?_min startM text s hfs
  have occE0 := findSub?_sound endM (text.drop s) d hfe
  rw [List.drop_drop] at occE0
  have hs_le : s ≤ text.length := by
    by_contra hgt
    exact not_pfx_of_len_le startM text hsne s (by omega) occS
  have hlen_take : (text.take s).length = s := by rw [List.length_take]; omega
  have occE : endM <+: text.drop (d + s) := by
    have e : d + s = s + d := by omega
    rw [e]; exact occE0
  have hA : findSub? startM r = some s := by
    apply findSub?_first
    · rw [hr, drop_len_append _ _ _ hlen_take]
      exact hSrepl.trans (List.prefix_append repl _)
    · intro k hk
      rw [hr]
      exact splice_min_start startM repl text (text.drop (d + s)) s hs_le hSrepl occS minS k hk
  have hB : findSub? endM (r.drop s) = some repl.length := by
    have hrs : r.drop s = repl ++ text.drop (d + s) := by
      rw [hr, drop_len_append _ _ _ hlen_take]
    rw [hrs]
    apply findSub?_first
    · rw [List.drop_left]
      exact occE
    · exact splice_min_end endM repl (text.drop (d + s)) hErepl occE
  unfold spliceBetween strIndex?
  rw [List.drop_zero, hA]
  simp only [Option.map_some', Nat.add_zero]
  rw [hB]
  simp only [Option.map_some']
  have h1 : r.take s = text.take s := by
    rw [hr, take_len_append _ _ _ hlen_take]
  have h2 : r.drop (repl.length + s) = text.drop (d + s) := by
    rw [hr, ← List.append_assoc]
    apply drop_len_append
    rw [List.length_append, hlen_take]
    omega
  rw [h1, h2, hr, List.append_assoc]

set_option maxRecDepth 1000000 in
/-- **C10** Idempotence of the translate-block rewrite: whenever
`fix_translate_block` succeeds on `text` producing `r`, running it again on
`r` succeeds and returns `r` unchanged — the replacement block begins with
the start marker and does not contain (or chain into) the end marker, so
the second run re-splices the identical region with the identical block. -/
theorem fix_translate_block_idem (text r : List Char)
    (h : fix_translate_block text = some r) :
    fix_translate_block r = some r := by
  apply spliceBetween_idem startMarker endMarker new_block text r ?_ ?_ ?_ h
  · decide
  · decide
  · decide

set_option maxRecDepth 1000000 in
theorem fix_translate_block_idem_witness :
    fix_translate_block ("zz".toList ++ new_block ++ endMarker ++ " tail".toList)
      = some ("zz".toList ++ new_block ++ endMarker ++ " tail".toList) :=
  fix_translate_block_idem
    ("zz".toList ++ startMarker ++ " mid ".toList ++ endMarker ++ " tail".toList)
    ("zz".toList ++ new_block ++ endMarker ++ " tail".toList)
    (by decide)
